import Mathlib

set_option autoImplicit false

/-!
Verification of the reel assembly pipeline of MemeDeliveryBot.

The Python sources embedded here are:
  * `reel_creator/main.py`            (`split_text_into_segments`, `generate_reel`)
  * `reel_creator/reel_assembler.py`  (`prepare_background`, `assemble_reel`)
  * `reel_creator/reel_backgrounds.py` (`chop_background`)
  * `reel_creator/gtts_engine.py`     (duration fallback behaviour)

Python strings are modelled as lists of characters (`Str`), Python floats as
rationals (the claims under study only involve exact arithmetic on the values
the code manipulates), fallible code as `Except PyErr`, and Python name lookup
(for the unbound-name claim) as membership in explicit lists of the names that
are actually bound in the relevant scope of the source.
-/

namespace ReelSpec

/-! ### Python string primitives (modelled over `List Char`) -/

/-- A Python string, modelled as its list of characters. -/
abbrev Str := List Char

/-- Whitespace test used by Python `str.split()` (modelled by `Char.isWhitespace`;
the characters relevant to the source are the ASCII ones, on which the two agree). -/
def isSpaceChar (c : Char) : Bool := c.isWhitespace

/-- Accumulator-style worker for `pySplit` (structural recursion so that the
kernel can evaluate it). `acc` holds the characters of the token currently
being read, in reverse order. -/
def pySplitAux : Str → Str → List Str
  | [], acc => if acc = [] then [] else [acc.reverse]
  | c :: rest, acc =>
    if isSpaceChar c then
      if acc = [] then pySplitAux rest []
      else acc.reverse :: pySplitAux rest []
    else pySplitAux rest (c :: acc)

/-- Python `s.split()` with no argument: split on runs of whitespace and
return the (never empty) tokens. -/
def pySplit (s : Str) : List Str := pySplitAux s []

/-- Python `" ".join(tokens)`. -/
def pyJoin : List Str → Str
  | [] => []
  | [t] => t
  | t :: t2 :: ts => t ++ ' ' :: pyJoin (t2 :: ts)

/-- Does `pat` occur as an initial segment of `s`? -/
def matchesAt : Str → Str → Bool
  | [], _ => true
  | _ :: _, [] => false
  | p :: ps, c :: cs => p == c && matchesAt ps cs

/-- Python `s.rfind(pat)`: the greatest index at which `pat` occurs in `s`,
or `-1` when it does not occur. -/
def pyRfind (s pat : Str) : ℤ :=
  match ((List.range (s.length + 1)).filter (fun i => matchesAt pat (s.drop i))).getLast? with
  | some i => (i : ℤ)
  | none => -1

/-- Python `s.strip()`: remove leading and trailing whitespace. -/
def pyStrip (s : Str) : Str :=
  ((s.dropWhile (fun c => isSpaceChar c)).reverse.dropWhile (fun c => isSpaceChar c)).reverse

/-- Python `int(x)` on a float/rational: truncation toward zero. -/
def pyInt (q : ℚ) : ℤ := if 0 ≤ q then ⌊q⌋ else ⌈q⌉

/-! ### Python exceptions -/

/-- The Python exceptions raised by the embedded code. -/
inductive PyErr where
  /-- `NameError`: an unbound name was referenced; carries the name. -/
  | nameError (name : String)
  /-- `ValueError`; carries the message. -/
  | valueError (msg : String)
  /-- `FileNotFoundError`; carries the message. -/
  | fileNotFoundError (msg : String)
  deriving DecidableEq

instance {ε α : Type} [DecidableEq ε] [DecidableEq α] : DecidableEq (Except ε α) :=
  fun x y =>
    match x, y with
    | Except.ok a, Except.ok b =>
      decidable_of_iff (a = b) ⟨congrArg Except.ok, fun h => by injection h⟩
    | Except.ok _, Except.error _ => isFalse (fun h => Except.noConfusion h)
    | Except.error _, Except.ok _ => isFalse (fun h => Except.noConfusion h)
    | Except.error e, Except.error f =>
      decidable_of_iff (e = f) ⟨congrArg Except.error, fun h => by injection h⟩

/-! ### The segment splitter, `reel_creator/main.py` lines 87-120 -/

/-- The body of the `len(current_segment_words) >= max_words` branch of
`split_text_into_segments` (main.py lines 100-115): join the accumulated
words, look backwards for the last sentence terminator, and either cut there
(carrying the tail over) or force-cut at the accumulated words.
Returns `(segment appended, new current_segment_words)`.

Python compares `len(segment_text) - (split_pos + 1) < max_words / 2` with
float division; over the integers involved this is exactly
`2 * (len(segment_text) - (split_pos + 1)) < max_words`. -/
def cutSegment (max_words : ℕ) (current_segment_words : List Str) : Str × List Str :=
  let segment_text := pyJoin current_segment_words
  let last_period := pyRfind segment_text ['.', ' ']
  let last_q_mark := pyRfind segment_text ['?', ' ']
  let last_ex_mark := pyRfind segment_text ['!', ' ']
  let split_pos := max (max last_period last_q_mark) last_ex_mark
  if 0 < split_pos ∧ 2 * ((segment_text.length : ℤ) - (split_pos + 1)) < (max_words : ℤ) then
    (pyStrip (segment_text.take (split_pos + 1).toNat),
     pySplit (segment_text.drop (split_pos + 2).toNat))
  else
    (pyJoin current_segment_words, [])

/-- One iteration of the `for word in words` loop of `split_text_into_segments`
(main.py lines 97-115). State: `(segments, current_segment_words)`. -/
def segStep (max_words : ℕ) (st : List Str × List Str) (word : Str) : List Str × List Str :=
  let current := st.2 ++ [word]
  if max_words ≤ current.length then
    let cut := cutSegment max_words current
    (st.1 ++ [cut.1], cut.2)
  else
    (st.1, current)

/-- `split_text_into_segments(text, max_words)` from main.py lines 87-120. -/
def split_text_into_segments (text : Str) (max_words : ℕ) : List Str :=
  if text = [] then []
  else
    let words := pySplit text
    let st := words.foldl (segStep max_words) ([], [])
    let segments := if st.2 ≠ [] then st.1 ++ [pyJoin st.2] else st.1
    segments.filter (fun s => s ≠ [])

/-! ### Duration bookkeeping in `generate_reel`, main.py lines 270-281 -/

/-- The duration bookkeeping of `generate_reel` (main.py lines 270-281):
`segment_durations` is the list of per-segment durations reported by the
narration synthesizer (`item['duration']` for the entries of
`audio_segments_info`), `image_count` is `len(image_paths)`. Returns the
`image_durations` list passed on to assembly, or the `ValueError` raised at
line 281. -/
def compute_image_durations (image_count : ℕ) (segment_durations : List ℚ) :
    Except PyErr (List ℚ) :=
  let total_speech_duration := segment_durations.sum
  let image_durations := segment_durations
  if total_speech_duration = 0 ∧ segment_durations ≠ [] then
    let image_durations := List.replicate image_count (3 : ℚ)
    let total_speech_duration := image_durations.sum
    if total_speech_duration = 0 then
      Except.error (PyErr.valueError
        "Cannot proceed with zero total duration and no audio/image segments.")
    else Except.ok image_durations
  else Except.ok image_durations

/-! ### Overlay timing in `assemble_reel`, reel_assembler.py lines 132-185 -/

/-- One image overlay scheduled in the composite: path, absolute start time
and display duration (`end` time is `start + duration`). -/
structure OverlayClip where
  img : String
  start : ℚ
  duration : ℚ
  deriving DecidableEq

/-- The `for` loops of reel_assembler.py lines 137-146 / 177-185: schedule one
clip per `(path, duration)` pair at the running `current_time`. -/
def overlayLoop : List (String × ℚ) → ℚ → List OverlayClip
  | [], _ => []
  | (img, d) :: rest, current_time =>
    ⟨img, current_time, d⟩ :: overlayLoop rest (current_time + d)

/-- The `else` branch of reel_assembler.py lines 147-185: no usable explicit
durations, so divide the audio duration with a fixed-length title slide. -/
def default_overlay_clips (total_audio_duration : ℚ) (image_paths : List String) :
    Except PyErr (List OverlayClip) :=
  match image_paths with
  | [] => Except.error (PyErr.valueError "No images provided for the reel.")
  | [p] => Except.ok [⟨p, 0, total_audio_duration⟩]
  | p :: rest =>
    let title_duration := min 3 total_audio_duration
    let remaining_duration := total_audio_duration - title_duration
    if 0 < remaining_duration ∧ 1 < image_paths.length then
      let duration_per_image := remaining_duration / ((image_paths.length : ℚ) - 1)
      Except.ok (⟨p, 0, title_duration⟩ ::
        overlayLoop (rest.map (fun q => (q, duration_per_image))) title_duration)
    else
      Except.ok [⟨p, 0, title_duration⟩]

/-- Reel_assembler.py lines 135-185: `if image_durations and
len(image_durations) == len(image_paths)` use the provided durations,
otherwise fall back to the default division. `none` models Python `None`. -/
def select_overlay_clips (total_audio_duration : ℚ) (image_paths : List String)
    (image_durations : Option (List ℚ)) : Except PyErr (List OverlayClip) :=
  match image_durations with
  | some durs =>
    if durs ≠ [] ∧ durs.length = image_paths.length then
      Except.ok (overlayLoop (image_paths.zip durs) 0)
    else default_overlay_clips total_audio_duration image_paths
  | none => default_overlay_clips total_audio_duration image_paths

/-! ### Background preparation, reel_assembler.py lines 18-65 and
reel_backgrounds.py lines 106-108 -/

/-- `get_video_duration` (reel_assembler.py lines 18-26, identically
reel_backgrounds.py lines 15-23): returns the probed duration, or `0` when
probing fails (`except ... return 0`). `none` models a failed probe. -/
def get_video_duration (probe : Option ℚ) : ℚ :=
  match probe with
  | some d => d
  | none => 0

/-- Outcome of the trim-or-loop decision in `prepare_background`. -/
inductive BgPlan where
  /-- `video_duration > desired_duration`: trim, with the random start drawn
  from `[0, video_duration - desired_duration]`. -/
  | trim (start_range : ℚ)
  /-- `video_duration <= desired_duration`: loop `num_loops` copies, then
  truncate to the desired duration. -/
  | loop (num_loops : ℤ)
  deriving DecidableEq

/-- The duration logic of `prepare_background` (reel_assembler.py lines
41-65): raise on zero probed duration, trim when the source is longer than
needed, otherwise loop `int(desired_duration / video_duration) + 1` times. -/
def prepare_background (video_duration desired_duration : ℚ) : Except PyErr BgPlan :=
  if video_duration = 0 then
    Except.error (PyErr.valueError
      "Background video duration is zero or could not be determined.")
  else if desired_duration < video_duration then
    Except.ok (BgPlan.trim (video_duration - desired_duration))
  else
    Except.ok (BgPlan.loop (pyInt (desired_duration / video_duration) + 1))

/-- The duration guard of `chop_background` (reel_backgrounds.py lines
106-108): `if video_duration <= 0: raise ValueError(...)`. -/
def chop_background_duration_check (video_duration : ℚ) : Except PyErr Unit :=
  if video_duration ≤ 0 then
    Except.error (PyErr.valueError
      "Could not determine duration or duration is zero for video")
  else Except.ok ()

/-! ### Name resolution in `assemble_reel`, reel_assembler.py lines 96-224 -/

/-- The names bound at module level in reel_assembler.py (lines 1-28, 96, 226):
imports, the two functions, and the aliased imports. -/
def assembleReelGlobals : List String :=
  ["os", "random", "ffmpeg", "VideoFileClip", "AudioFileClip", "ImageClip",
   "concatenate_videoclips", "CompositeVideoClip", "TextClip",
   "CompositeAudioClip", "crop", "config", "get_video_duration",
   "prepare_background", "assemble_reel"]

/-- Python builtins referenced in `assemble_reel`. -/
def pyBuiltins : List String :=
  ["print", "len", "min", "enumerate", "range", "open", "int", "float", "str",
   "list", "isinstance", "Exception", "ValueError"]

/-- The local names of `assemble_reel` bound before the call at line 124:
the six parameters (lines 96-102) and the assignments at lines 110, 115,
116, 117, 119, 120. -/
def assembleReelLocalsBeforeBgCall : List String :=
  ["reel_id", "audio_path", "image_paths", "background_video_path",
   "output_filename", "image_durations",
   "final_assembly_dir", "video_w", "video_h", "video_fps",
   "main_audio_clip", "total_audio_duration"]

/-- Every local name `assemble_reel` could have bound by the time the
`print`/`return` at lines 223-224 runs: the names above plus every assignment
target of lines 124-220 (including all loop variables of both branches). -/
def assembleReelLocalsAtReturn : List String :=
  assembleReelLocalsBeforeBgCall ++
  ["processed_background_path", "background_clip", "clips_to_overlay",
   "current_time", "i", "img_path", "duration", "img_clip", "title_duration",
   "img_clip_title", "remaining_duration", "duration_per_image",
   "background_clip_final", "final_video", "output_path_temp", "clip"]

/-- Python name resolution: a name evaluates successfully iff it is bound as
a local, a module global, or a builtin; otherwise `NameError` is raised. -/
def pyResolve (locals globals : List String) (n : String) : Except PyErr Unit :=
  if n ∈ locals ∨ n ∈ globals ∨ n ∈ pyBuiltins then Except.ok ()
  else Except.error (PyErr.nameError n)

/-- Control skeleton of `assemble_reel` (reel_assembler.py lines 96-224) up to
the background call. `audio_load` is the outcome of
`AudioFileClip(audio_path)` / `.duration` (lines 119-120); `rest` abstracts
everything the function would do after line 124 (media work, file writes and
the final return). Line 124 evaluates the argument `background_is_9_16`
before calling `prepare_background`, which is modelled by the `pyResolve`
step. -/
def assemble_reel_run (audio_load : Except PyErr ℚ)
    (rest : ℚ → Except PyErr String) : Except PyErr String := do
  let total_audio_duration ← audio_load
  pyResolve assembleReelLocalsBeforeBgCall assembleReelGlobals "background_is_9_16"
  rest total_audio_duration

/-! ### Orchestrator teardown, main.py lines 149-379 -/

/-- Main.py line 373: `PERFORM_CLEANUP = False`. -/
def PERFORM_CLEANUP : Bool := false

/-- The decision taken by the `finally` block (main.py lines 371-379). -/
inductive TeardownAction where
  /-- `cleanup.cleanup_temp_files(...)` was invoked. -/
  | cleaned
  /-- cleanup was skipped (temp files left in place). -/
  | skippedCleanup
  deriving DecidableEq

/-- The teardown decision of the `finally` block: clean up iff
`PERFORM_CLEANUP`. -/
def teardown_action : TeardownAction :=
  if PERFORM_CLEANUP then TeardownAction.cleaned else TeardownAction.skippedCleanup

/-- Control skeleton of `generate_reel` (main.py lines 174-379): the `try`
body (everything after the temp directory exists) is abstracted as its
outcome `body`; `except ValueError` (lines 361-365) and `except Exception`
(lines 366-370) both return `None`; the `finally` block (lines 371-379)
always performs the teardown decision. Returns the Python return value
together with the teardown action taken. -/
def generate_reel_outcome (body : Except PyErr String) :
    Option String × TeardownAction :=
  (match body with
   | Except.ok p => some p
   | Except.error (PyErr.valueError _) => none
   | Except.error _ => none,
   teardown_action)

/-! ### Claim-side derived descriptions used to state the theorems -/

/-- A well-formed Python token: non-empty and containing no whitespace.
Every element of a `str.split()` result has this shape. -/
def goodTok (t : Str) : Prop := t ≠ [] ∧ ∀ c ∈ t, isSpaceChar c = false

/-- All tokens of the list are well-formed. -/
def goodToks (l : List Str) : Prop := ∀ t ∈ l, goodTok t

instance (t : Str) : Decidable (goodTok t) := by unfold goodTok; infer_instance

instance (l : List Str) : Decidable (goodToks l) := by unfold goodToks; infer_instance

/-- Is `c` one of the sentence terminators `.`, `?`, `!`? -/
def isTerminatorChar (c : Char) : Bool := c == '.' || c == '?' || c == '!'

/-- Does the token end in a sentence terminator? -/
def endsWithTerminator (t : Str) : Bool := (t.getLast?).any isTerminatorChar

/-- The largest `k` with `1 ≤ k < toks.length` such that the `k`-th token
(1-indexed) ends in a sentence terminator — i.e. the token-level position of
the last sentence terminator that is followed by a space in the joined text.
`none` when there is no such `k`. -/
def lastTerminatorCut (toks : List Str) : Option ℕ :=
  ((List.range toks.length).filter
    (fun k => decide (0 < k) && (toks.get? (k - 1)).any endsWithTerminator)).getLast?


/-- Invariant satisfied by every segment the splitter emits: non-empty, the
canonical single-space join of its words, and at most `n` words. -/
def SegProp (n : ℕ) (s : Str) : Prop :=
  s ≠ [] ∧ pyJoin (pySplit s) = s ∧ (pySplit s).length ≤ n

/-! ## Proof development -/

lemma isSpaceChar_space : isSpaceChar ' ' = true := by decide

lemma length_dropWhile_le (p : Char → Bool) (l : Str) :
    (l.dropWhile p).length ≤ l.length := by
  induction l with
  | nil => simp [List.dropWhile]
  | cons c r ih =>
    by_cases h : p c
    · simp [List.dropWhile, h]; omega
    · simp [List.dropWhile, h]

lemma pySplitAux_ne_nil (rest : Str) : ∀ acc : Str, acc ≠ [] →
    pySplitAux rest acc
      = (acc.reverse ++ rest.takeWhile (fun d => !isSpaceChar d))
        :: pySplit (rest.dropWhile (fun d => !isSpaceChar d)) := by
  induction rest with
  | nil =>
    intro acc hacc
    simp [pySplitAux, hacc, List.takeWhile, List.dropWhile, pySplit]
  | cons c r ih =>
    intro acc hacc
    by_cases h : isSpaceChar c
    · simp [pySplitAux, h, hacc, List.takeWhile, List.dropWhile, pySplit]
    · have := ih (c :: acc) (by simp)
      simp only [pySplitAux, if_neg h, this, List.takeWhile, List.dropWhile,
        eq_false_of_ne_true, h]
      simp [h]

lemma pySplit_nil : pySplit [] = [] := rfl

lemma pySplit_cons_space {c : Char} (h : isSpaceChar c = true) (r : Str) :
    pySplit (c :: r) = pySplit r := by
  simp [pySplit, pySplitAux, h]

lemma pySplit_cons_tok {c : Char} (h : isSpaceChar c = false) (r : Str) :
    pySplit (c :: r)
      = (c :: r.takeWhile (fun d => !isSpaceChar d))
        :: pySplit (r.dropWhile (fun d => !isSpaceChar d)) := by
  have h' : ¬ isSpaceChar c = true := by simp [h]
  have := pySplitAux_ne_nil r [c] (by simp)
  simp only [pySplit, pySplitAux, if_neg h']
  simpa using this

lemma takeWhile_append_space (l r : Str) (h : ∀ c ∈ l, isSpaceChar c = false) :
    (l ++ ' ' :: r).takeWhile (fun d => !isSpaceChar d) = l := by
  induction l with
  | nil => simp [List.takeWhile, isSpaceChar_space]
  | cons c cs ih =>
    have hc := h c (by simp)
    simp only [List.cons_append, List.takeWhile, hc]
    simp [ih (fun d hd => h d (by simp [hd]))]

lemma dropWhile_append_space (l r : Str) (h : ∀ c ∈ l, isSpaceChar c = false) :
    (l ++ ' ' :: r).dropWhile (fun d => !isSpaceChar d) = ' ' :: r := by
  induction l with
  | nil => simp [List.dropWhile, isSpaceChar_space]
  | cons c cs ih =>
    have hc := h c (by simp)
    simp only [List.cons_append, List.dropWhile, hc]
    simp [ih (fun d hd => h d (by simp [hd]))]

lemma takeWhile_all_nonspace (l : Str) (h : ∀ c ∈ l, isSpaceChar c = false) :
    l.takeWhile (fun d => !isSpaceChar d) = l := by
  induction l with
  | nil => rfl
  | cons c cs ih =>
    have hc := h c (by simp)
    simp only [List.takeWhile, hc]
    simp [ih (fun d hd => h d (by simp [hd]))]

lemma dropWhile_all_nonspace (l : Str) (h : ∀ c ∈ l, isSpaceChar c = false) :
    l.dropWhile (fun d => !isSpaceChar d) = [] := by
  induction l with
  | nil => rfl
  | cons c cs ih =>
    have hc := h c (by simp)
    simp only [List.dropWhile, hc]
    simp [ih (fun d hd => h d (by simp [hd]))]

lemma goodToks_pySplit (s : Str) : goodToks (pySplit s) := by
  suffices h : ∀ (fuel : ℕ) (s : Str), s.length ≤ fuel → goodToks (pySplit s) by
    exact h s.length s le_rfl
  intro fuel
  induction fuel with
  | zero =>
    intro s hs
    have : s = [] := List.length_eq_zero.mp (Nat.le_zero.mp hs)
    subst this
    intro t ht
    simp [pySplit_nil] at ht
  | succ f ih =>
    intro s hs
    cases s with
    | nil => intro t ht; simp [pySplit_nil] at ht
    | cons c r =>
      by_cases hc : isSpaceChar c
      · rw [pySplit_cons_space hc]
        refine ih r ?_
        have : r.length + 1 ≤ f + 1 := by simpa using hs
        omega
      · have hc' : isSpaceChar c = false := by simpa using hc
        rw [pySplit_cons_tok hc']
        intro t ht
        rcases List.mem_cons.mp ht with h1 | h2
        · subst h1
          refine ⟨by simp, ?_⟩
          intro d hd
          rcases List.mem_cons.mp hd with h1 | h2
          · subst h1; exact hc'
          · have := List.mem_takeWhile_imp h2
            simpa using this
        · have hr : r.length ≤ f := by simpa using hs
          exact ih (r.dropWhile (fun d => !isSpaceChar d))
            (le_trans (length_dropWhile_le _ r) hr) t h2

lemma pyJoin_cons (t : Str) (l : List Str) (h : l ≠ []) :
    pyJoin (t :: l) = t ++ ' ' :: pyJoin l := by
  cases l with
  | nil => exact absurd rfl h
  | cons t2 ts => rfl

lemma pySplit_pyJoin_cont (toks : List Str) :
    goodToks toks → toks ≠ [] → ∀ z : Str,
    pySplit (pyJoin toks ++ ' ' :: z) = toks ++ pySplit z := by
  induction toks with
  | nil => intro _ h; exact absurd rfl h
  | cons t ts ih =>
    intro hg _ z
    obtain ⟨htne, htchars⟩ := hg t (by simp)
    obtain ⟨c, cs, rfl⟩ : ∃ c cs, t = c :: cs := by
      cases t with
      | nil => exact absurd rfl htne
      | cons c cs => exact ⟨c, cs, rfl⟩
    have hcs : ∀ d ∈ cs, isSpaceChar d = false := fun d hd => htchars d (by simp [hd])
    have hc : isSpaceChar c = false := htchars c (by simp)
    cases ts with
    | nil =>
      simp only [pyJoin, List.cons_append]
      rw [pySplit_cons_tok hc]
      rw [takeWhile_append_space cs z hcs, dropWhile_append_space cs z hcs]
      rw [pySplit_cons_space isSpaceChar_space]
      simp
    | cons t2 ts2 =>
      have hne2 : (t2 :: ts2 : List Str) ≠ [] := by simp
      have hg2 : goodToks (t2 :: ts2) := fun u hu => hg u (by simp [hu])
      rw [pyJoin_cons _ _ hne2]
      have assoc : ((c :: cs) ++ ' ' :: pyJoin (t2 :: ts2)) ++ ' ' :: z
          = (c :: cs) ++ ' ' :: (pyJoin (t2 :: ts2) ++ ' ' :: z) := by simp
      rw [assoc]
      simp only [List.cons_append]
      rw [pySplit_cons_tok hc]
      rw [takeWhile_append_space cs _ hcs, dropWhile_append_space cs _ hcs]
      rw [pySplit_cons_space isSpaceChar_space]
      rw [ih hg2 hne2 z]
      simp

lemma pySplit_pyJoin (toks : List Str) (hg : goodToks toks) :
    pySplit (pyJoin toks) = toks := by
  induction toks with
  | nil => rfl
  | cons t ts ih =>
    obtain ⟨htne, htchars⟩ := hg t (by simp)
    obtain ⟨c, cs, rfl⟩ : ∃ c cs, t = c :: cs := by
      cases t with
      | nil => exact absurd rfl htne
      | cons c cs => exact ⟨c, cs, rfl⟩
    have hcs : ∀ d ∈ cs, isSpaceChar d = false := fun d hd => htchars d (by simp [hd])
    have hc : isSpaceChar c = false := htchars c (by simp)
    cases ts with
    | nil =>
      simp only [pyJoin]
      rw [pySplit_cons_tok hc]
      rw [takeWhile_all_nonspace cs hcs, dropWhile_all_nonspace cs hcs, pySplit_nil]
    | cons t2 ts2 =>
      have hne2 : (t2 :: ts2 : List Str) ≠ [] := by simp
      have hg2 : goodToks (t2 :: ts2) := fun u hu => hg u (by simp [hu])
      rw [pyJoin_cons _ _ hne2]
      simp only [List.cons_append]
      rw [pySplit_cons_tok hc]
      rw [takeWhile_append_space cs _ hcs, dropWhile_append_space cs _ hcs]
      rw [pySplit_cons_space isSpaceChar_space]
      rw [ih hg2]

lemma pyJoin_append (a b : List Str) (ha : a ≠ []) (hb : b ≠ []) :
    pyJoin (a ++ b) = pyJoin a ++ ' ' :: pyJoin b := by
  induction a with
  | nil => exact absurd rfl ha
  | cons t ts ih =>
    cases ts with
    | nil =>
      rw [List.singleton_append, pyJoin_cons t b hb]
      rfl
    | cons t2 ts2 =>
      have hne : (t2 :: ts2 : List Str) ≠ [] := by simp
      have hne' : (t2 :: ts2) ++ b ≠ [] := by simp
      rw [List.cons_append, pyJoin_cons t _ hne', pyJoin_cons t _ hne, ih hne]
      simp

lemma pyJoin_head (toks : List Str) (hg : goodToks toks) (hne : toks ≠ []) :
    ∃ c r, pyJoin toks = c :: r ∧ isSpaceChar c = false := by
  cases toks with
  | nil => exact absurd rfl hne
  | cons t ts =>
    obtain ⟨htne, htchars⟩ := hg t (by simp)
    obtain ⟨c, cs, rfl⟩ : ∃ c cs, t = c :: cs := by
      cases t with
      | nil => exact absurd rfl htne
      | cons c cs => exact ⟨c, cs, rfl⟩
    cases ts with
    | nil => exact ⟨c, cs, rfl, htchars c (by simp)⟩
    | cons t2 ts2 =>
      refine ⟨c, cs ++ ' ' :: pyJoin (t2 :: ts2), ?_, htchars c (by simp)⟩
      rw [pyJoin_cons _ _ (by simp)]
      rfl

lemma pyJoin_ne_nil (toks : List Str) (hg : goodToks toks) (hne : toks ≠ []) :
    pyJoin toks ≠ [] := by
  obtain ⟨c, r, heq, -⟩ := pyJoin_head toks hg hne
  rw [heq]
  simp

lemma pyJoin_last (toks : List Str) (hg : goodToks toks) :
    ∀ t, toks.getLast? = some t →
      ∃ r c, pyJoin toks = r ++ [c] ∧ t.getLast? = some c ∧ isSpaceChar c = false := by
  induction toks with
  | nil => intro t ht; simp at ht
  | cons t0 ts ih =>
    intro t ht
    cases ts with
    | nil =>
      rw [List.getLast?_singleton] at ht
      injection ht with ht
      subst ht
      obtain ⟨htne, htchars⟩ := hg t0 (by simp)
      obtain ⟨r, c, rfl⟩ : ∃ r c, t0 = r ++ [c] := by
        rcases List.eq_nil_or_concat' t0 with h | ⟨r, c, h⟩
        · exact absurd h htne
        · exact ⟨r, c, h⟩
      exact ⟨r, c, rfl, List.getLast?_concat r,
        htchars c (by simp)⟩
    | cons t1 ts1 =>
      have hg1 : goodToks (t1 :: ts1) := fun u hu => hg u (by simp [hu])
      have hlast : (t1 :: ts1).getLast? = some t := by
        rw [← ht, List.getLast?_cons_cons]
      obtain ⟨r, c, heq, hc1, hc2⟩ := ih hg1 t hlast
      refine ⟨t0 ++ ' ' :: r, c, ?_, hc1, hc2⟩
      rw [pyJoin_cons _ _ (by simp), heq]
      simp

lemma pyStrip_pyJoin (toks : List Str) (hg : goodToks toks) (hne : toks ≠ []) :
    pyStrip (pyJoin toks) = pyJoin toks := by
  obtain ⟨c, r, heq, hc⟩ := pyJoin_head toks hg hne
  obtain ⟨t, ht⟩ : ∃ t, toks.getLast? = some t := by
    cases h : toks.getLast? with
    | none => exact absurd (List.getLast?_eq_none_iff.mp h) hne
    | some t => exact ⟨t, rfl⟩
  obtain ⟨r2, c2, heq2, -, hc2⟩ := pyJoin_last toks hg t ht
  unfold pyStrip
  have h1 : (pyJoin toks).dropWhile (fun d => isSpaceChar d) = pyJoin toks := by
    rw [heq, List.dropWhile_cons]
    simp [hc]
  rw [h1, heq2]
  rw [List.reverse_append, List.reverse_singleton, List.singleton_append,
    List.dropWhile_cons]
  simp only [hc2]
  simp

lemma space_in_pyJoin (toks : List Str) (hg : goodToks toks) :
    ∀ i, (pyJoin toks).get? i = some ' ' →
      ∃ k, 1 ≤ k ∧ k < toks.length ∧ i = (pyJoin (toks.take k)).length := by
  induction toks with
  | nil => intro i hi; simp [pyJoin] at hi
  | cons t ts ih =>
    intro i hi
    obtain ⟨htne, htchars⟩ := hg t (by simp)
    cases ts with
    | nil =>
      exfalso
      have hmem : ' ' ∈ t := List.get?_mem hi
      have := htchars ' ' hmem
      simp [isSpaceChar_space] at this
    | cons t2 ts2 =>
      have hg2 : goodToks (t2 :: ts2) := fun u hu => hg u (by simp [hu])
      rw [pyJoin_cons _ _ (by simp)] at hi
      rcases lt_trichotomy i t.length with hlt | heq | hgt
      · exfalso
        rw [List.get?_append hlt] at hi
        have hmem : ' ' ∈ t := List.get?_mem hi
        have := htchars ' ' hmem
        simp [isSpaceChar_space] at this
      · refine ⟨1, le_rfl, by simp, ?_⟩
        simp [pyJoin, heq]
      · rw [List.get?_append_right (le_of_lt hgt)] at hi
        have hpos : 1 ≤ i - t.length := by omega
        have hi' : (pyJoin (t2 :: ts2)).get? (i - t.length - 1) = some ' ' := by
          cases h : i - t.length with
          | zero => omega
          | succ j =>
            rw [h] at hi
            simpa using hi
        obtain ⟨k, hk1, hk2, hk3⟩ := ih hg2 (i - t.length - 1) hi'
        refine ⟨k + 1, by omega, by simpa using hk2, ?_⟩
        have hlk : ((t2 :: ts2).take k).length = k := by
          rw [List.length_take]
          simp at hk2 ⊢
          omega
        have htk : (t2 :: ts2).take k ≠ [] := by
          intro h
          rw [h] at hlk
          simp at hlk
          omega
        rw [List.take_succ_cons, pyJoin_cons _ _ htk]
        simp only [List.length_append, List.length_cons]
        omega

lemma goodToks_take (toks : List Str) (hg : goodToks toks) (k : ℕ) :
    goodToks (toks.take k) := fun t ht => hg t (List.take_subset k toks ht)

lemma goodToks_drop (toks : List Str) (hg : goodToks toks) (k : ℕ) :
    goodToks (toks.drop k) := fun t ht => hg t (List.drop_subset k toks ht)

lemma take_ne_nil_of_bounds {toks : List Str} {k : ℕ} (h1 : 1 ≤ k) :
    toks.length ≠ 0 → toks.take k ≠ [] := by
  intro hlen h
  have : (toks.take k).length = min k toks.length := List.length_take k toks
  rw [h] at this
  simp at this
  omega

/-- Splitting the joined text at the separator that follows the first `k`
tokens: the prefix is the join of the first `k` tokens, the character at the
separator index is a space, and the tail after it is the join of the rest. -/
lemma pyJoin_take_drop (toks : List Str) (k : ℕ)
    (h1 : 1 ≤ k) (h2 : k < toks.length) :
    (pyJoin toks).take ((pyJoin (toks.take k)).length) = pyJoin (toks.take k) ∧
    (pyJoin toks).get? ((pyJoin (toks.take k)).length) = some ' ' ∧
    (pyJoin toks).drop ((pyJoin (toks.take k)).length + 1) = pyJoin (toks.drop k) := by
  have hsplit : toks = toks.take k ++ toks.drop k := (List.take_append_drop k toks).symm
  have htne : toks.take k ≠ [] := take_ne_nil_of_bounds h1 (by omega)
  have hdne : toks.drop k ≠ [] := by
    intro h
    have := List.length_drop k toks
    rw [h] at this
    simp at this
    omega
  have hjoin : pyJoin toks = pyJoin (toks.take k) ++ ' ' :: pyJoin (toks.drop k) := by
    conv_lhs => rw [hsplit]
    exact pyJoin_append _ _ htne hdne
  refine ⟨?_, ?_, ?_⟩
  · rw [hjoin, List.take_left]
  · rw [hjoin, List.get?_append_right le_rfl]
    simp
  · rw [hjoin]
    have : (pyJoin (toks.take k)).length + 1
        = (pyJoin (toks.take k) ++ [' ']).length := by simp
    rw [this]
    have assoc : pyJoin (toks.take k) ++ ' ' :: pyJoin (toks.drop k)
        = (pyJoin (toks.take k) ++ [' ']) ++ pyJoin (toks.drop k) := by simp
    rw [assoc, List.drop_left]

lemma matchesAt_pair {c1 c2 : Char} {l : Str} :
    matchesAt [c1, c2] l = true ↔ ∃ l', l = c1 :: c2 :: l' := by
  cases l with
  | nil => simp [matchesAt]
  | cons a as =>
    cases as with
    | nil => simp [matchesAt]
    | cons b bs =>
      simp only [matchesAt, Bool.and_eq_true, beq_iff_eq]
      constructor
      · rintro ⟨h1, h2, -⟩
        exact ⟨bs, by rw [h1, h2]⟩
      · rintro ⟨l', hl⟩
        injection hl with h1 hl
        injection hl with h2 _
        exact ⟨h1.symm, h2.symm, trivial⟩

lemma matchesAt_pair_get {c1 c2 : Char} {s : Str} {p : ℕ} :
    matchesAt [c1, c2] (s.drop p) = true ↔
      (s.get? p = some c1 ∧ s.get? (p + 1) = some c2) := by
  rw [matchesAt_pair]
  constructor
  · rintro ⟨l', hl⟩
    constructor
    · have : (s.drop p).get? 0 = some c1 := by rw [hl]; rfl
      rwa [List.get?_drop, Nat.add_zero] at this
    · have : (s.drop p).get? 1 = some c2 := by rw [hl]; rfl
      rwa [List.get?_drop] at this
  · rintro ⟨h1, h2⟩
    obtain ⟨hp, hget⟩ := List.get?_eq_some.mp h1
    obtain ⟨hp2, hget2⟩ := List.get?_eq_some.mp h2
    refine ⟨s.drop (p + 2), ?_⟩
    rw [List.drop_eq_get_cons hp, hget, List.drop_eq_get_cons hp2, hget2]

lemma getLast?_filter_range_none {m : ℕ} {pred : ℕ → Bool} :
    ((List.range m).filter pred).getLast? = none ↔ ∀ b, b < m → pred b = false := by
  induction m with
  | zero => simp
  | succ n ih =>
    cases hp : pred n with
    | true =>
      have hfilter : List.filter pred [n] = [n] := by simp [hp]
      rw [List.range_succ, List.filter_append, hfilter, List.getLast?_append]
      simp only [List.getLast?_singleton]
      constructor
      · intro h; simp at h
      · intro h
        exact absurd (h n (by omega)) (by simp [hp])
    | false =>
      have hfilter : List.filter pred [n] = [] := by simp [hp]
      rw [List.range_succ, List.filter_append, hfilter, List.append_nil, ih]
      constructor
      · intro h b hb
        rcases Nat.lt_succ_iff_lt_or_eq.mp hb with h' | h'
        · exact h b h'
        · subst h'; exact hp
      · intro h b hb
        exact h b (by omega)

lemma getLast?_filter_range_some {m a : ℕ} {pred : ℕ → Bool}
    (h : ((List.range m).filter pred).getLast? = some a) :
    a < m ∧ pred a = true ∧ ∀ b, a < b → b < m → pred b = false := by
  induction m with
  | zero => simp at h
  | succ n ih =>
    cases hp : pred n with
    | true =>
      have hfilter : List.filter pred [n] = [n] := by simp [hp]
      rw [List.range_succ, List.filter_append, hfilter, List.getLast?_append] at h
      simp only [List.getLast?_singleton, Option.or_some] at h
      injection h with h
      subst h
      exact ⟨by omega, hp, fun b hb1 hb2 => by omega⟩
    | false =>
      have hfilter : List.filter pred [n] = [] := by simp [hp]
      rw [List.range_succ, List.filter_append, hfilter, List.append_nil] at h
      obtain ⟨h1, h2, h3⟩ := ih h
      refine ⟨by omega, h2, fun b hb1 hb2 => ?_⟩
      rcases Nat.lt_succ_iff_lt_or_eq.mp hb2 with h' | h'
      · exact h3 b hb1 h'
      · subst h'; exact hp

lemma getLast?_filter_range_of_pred {m a : ℕ} (pred : ℕ → Bool)
    (ha : a < m) (hp : pred a = true) :
    ∃ b, ((List.range m).filter pred).getLast? = some b ∧ a ≤ b := by
  cases h : ((List.range m).filter pred).getLast? with
  | none =>
    exact absurd hp (by simp [getLast?_filter_range_none.mp h a ha])
  | some b =>
    obtain ⟨h1, h2, h3⟩ := getLast?_filter_range_some h
    refine ⟨b, rfl, ?_⟩
    by_contra hab
    exact absurd hp (by simp [h3 a (by omega) ha])

/-- When the pattern occurs nowhere, `rfind` returns `-1`. -/
lemma pyRfind_eq_neg_one {s pat : Str}
    (h : ∀ p, p ≤ s.length → matchesAt pat (s.drop p) = false) :
    pyRfind s pat = -1 := by
  unfold pyRfind
  have hnone : ((List.range (s.length + 1)).filter
      (fun i => matchesAt pat (s.drop i))).getLast? = none := by
    rw [getLast?_filter_range_none]
    intro b hb
    exact h b (by omega)
  rw [hnone]

/-- When `rfind` returns a nonnegative index, the pattern occurs there and
nowhere later. -/
lemma pyRfind_spec {s pat : Str} {i : ℕ}
    (h : pyRfind s pat = (i : ℤ)) :
    i ≤ s.length ∧ matchesAt pat (s.drop i) = true ∧
      ∀ p, i < p → p ≤ s.length → matchesAt pat (s.drop p) = false := by
  unfold pyRfind at h
  cases hl : ((List.range (s.length + 1)).filter
      (fun i => matchesAt pat (s.drop i))).getLast? with
  | none =>
    rw [hl] at h
    have h' : (-1 : ℤ) = (i : ℤ) := h
    omega
  | some j =>
    rw [hl] at h
    have h' : (j : ℤ) = (i : ℤ) := h
    have hij : j = i := by exact_mod_cast h'
    subst hij
    obtain ⟨h1, h2, h3⟩ := getLast?_filter_range_some hl
    refine ⟨by omega, by simpa using h2, fun p hp1 hp2 => ?_⟩
    have := h3 p hp1 (by omega)
    simpa using this

/-- Any occurrence position is a lower bound for `rfind`. -/
lemma pyRfind_ge {s pat : Str} {p : ℕ} (hp : p ≤ s.length)
    (hm : matchesAt pat (s.drop p) = true) :
    (p : ℤ) ≤ pyRfind s pat := by
  obtain ⟨b, hb, hab⟩ := getLast?_filter_range_of_pred
    (fun i => matchesAt pat (s.drop i))
    (show p < s.length + 1 by omega) hm
  unfold pyRfind
  rw [hb]
  show (p : ℤ) ≤ (b : ℤ)
  exact_mod_cast hab

/-- `rfind` is either `-1` or a nonnegative occurrence index. -/
lemma pyRfind_cases (s pat : Str) :
    pyRfind s pat = -1 ∨ ∃ i : ℕ, pyRfind s pat = (i : ℤ) := by
  unfold pyRfind
  cases ((List.range (s.length + 1)).filter
      (fun i => matchesAt pat (s.drop i))).getLast? with
  | none => exact Or.inl rfl
  | some j => exact Or.inr ⟨j, rfl⟩

lemma getLast?_eq_get? {α : Type} (l : List α) : l.getLast? = l.get? (l.length - 1) := by
  rw [List.getLast?_eq_getElem?, List.get?_eq_getElem?]

/-- The last element of `toks.take k` is the `k`-th token (1-indexed). -/
lemma getLast?_take_eq_get? (toks : List Str) (k : ℕ) (h1 : 1 ≤ k)
    (h2 : k ≤ toks.length) :
    (toks.take k).getLast? = toks.get? (k - 1) := by
  have hlen : (toks.take k).length = k := by
    rw [List.length_take]
    omega
  rw [getLast?_eq_get?, hlen, List.get?_take (by omega)]

/-- The join of a longer token prefix is strictly longer. -/
lemma pyJoin_take_length_lt (toks : List Str) (k k' : ℕ)
    (h1 : 1 ≤ k) (hkk : k < k') (h2 : k' ≤ toks.length) :
    (pyJoin (toks.take k)).length < (pyJoin (toks.take k')).length := by
  have hdecomp : toks.take k' = toks.take k ++ (toks.take k').drop k := by
    conv_lhs => rw [← List.take_append_drop k (toks.take k')]
    rw [List.take_take, min_eq_left (by omega)]
  have htne : toks.take k ≠ [] := take_ne_nil_of_bounds h1 (by omega)
  have hmne : (toks.take k').drop k ≠ [] := by
    intro h
    have hl := List.length_drop k (toks.take k')
    rw [h, List.length_take] at hl
    simp at hl
    omega
  rw [hdecomp, pyJoin_append _ _ htne hmne]
  simp

/-- Monotone version. -/
lemma pyJoin_take_length_le (toks : List Str) (k k' : ℕ)
    (h1 : 1 ≤ k) (hkk : k ≤ k') (h2 : k' ≤ toks.length) :
    (pyJoin (toks.take k)).length ≤ (pyJoin (toks.take k')).length := by
  rcases Nat.lt_or_ge k k' with h | h
  · exact le_of_lt (pyJoin_take_length_lt toks k k' h1 h h2)
  · have : k = k' := by omega
    subst this
    exact le_rfl

/-- Character-level occurrences of a terminator-plus-space pattern in the
joined text correspond exactly to token positions `k` whose token ends with
that terminator character. -/
lemma terminator_match_iff (toks : List Str) (hg : goodToks toks) (c : Char)
    (hc : isSpaceChar c = false) (p : ℕ) :
    matchesAt [c, ' '] ((pyJoin toks).drop p) = true ↔
      ∃ k, 1 ≤ k ∧ k < toks.length ∧ p + 1 = (pyJoin (toks.take k)).length ∧
        ∃ t, toks.get? (k - 1) = some t ∧ t.getLast? = some c := by
  constructor
  · intro hm
    obtain ⟨hp1, hp2⟩ := matchesAt_pair_get.mp hm
    obtain ⟨k, hk1, hk2, hk3⟩ := space_in_pyJoin toks hg (p + 1) hp2
    refine ⟨k, hk1, hk2, hk3, ?_⟩
    have htake := (pyJoin_take_drop toks k hk1 hk2).1
    -- the character at `p` is the last character of `pyJoin (toks.take k)`
    have htne : toks.take k ≠ [] := take_ne_nil_of_bounds hk1 (by omega)
    have hgk : goodToks (toks.take k) := goodToks_take toks hg k
    obtain ⟨t, ht⟩ : ∃ t, (toks.take k).getLast? = some t := by
      cases h : (toks.take k).getLast? with
      | none => exact absurd (List.getLast?_eq_none_iff.mp h) htne
      | some t => exact ⟨t, rfl⟩
    obtain ⟨r, c', heq, hlastc, -⟩ := pyJoin_last (toks.take k) hgk t ht
    refine ⟨t, by rw [← getLast?_take_eq_get? toks k hk1 (by omega)]; exact ht, ?_⟩
    -- show c' = c by reading position p of the join
    have hlenr : (pyJoin (toks.take k)).length = r.length + 1 := by
      rw [heq]; simp
    have hgetp : (pyJoin toks).get? p = ((pyJoin toks).take (p + 1)).get? p :=
      (List.get?_take (by omega)).symm
    rw [hk3, htake] at hgetp
    rw [hp1] at hgetp
    have : (pyJoin (toks.take k)).get? p = some c' := by
      rw [heq]
      have hp : p = r.length := by omega
      rw [hp]
      rw [List.get?_append_right le_rfl]
      simp
    rw [← hgetp] at this
    injection this with this
    rw [hlastc, this]
  · rintro ⟨k, hk1, hk2, hk3, t, ht, hlast⟩
    have hgk : goodToks (toks.take k) := goodToks_take toks hg k
    have htne : toks.take k ≠ [] := take_ne_nil_of_bounds hk1 (by omega)
    have ht' : (toks.take k).getLast? = some t := by
      rw [getLast?_take_eq_get? toks k hk1 (by omega)]
      exact ht
    obtain ⟨r, c', heq, hlastc, -⟩ := pyJoin_last (toks.take k) hgk t ht'
    have hcc : c' = c := by
      rw [hlast] at hlastc
      injection hlastc with h
      exact h.symm
    subst hcc
    obtain ⟨-, -, hdrop⟩ := pyJoin_take_drop toks k hk1 hk2
    have hdecomp : pyJoin toks
        = pyJoin (toks.take k) ++ ' ' :: pyJoin (toks.drop k) := by
      have hdne : toks.drop k ≠ [] := by
        intro h
        have hl := List.length_drop k toks
        rw [h] at hl
        simp at hl
        omega
      conv_lhs => rw [← List.take_append_drop k toks]
      exact pyJoin_append _ _ htne hdne
    rw [matchesAt_pair]
    refine ⟨pyJoin (toks.drop k), ?_⟩
    rw [hdecomp, heq]
    have hp : p = r.length := by
      have : (pyJoin (toks.take k)).length = r.length + 1 := by rw [heq]; simp
      omega
    subst hp
    rw [List.append_assoc, List.drop_left]
    simp

lemma isSpaceChar_of_terminator {c : Char} (h : isTerminatorChar c = true) :
    isSpaceChar c = false := by
  simp only [isTerminatorChar, Bool.or_eq_true, beq_iff_eq] at h
  rcases h with (h | h) | h <;> subst h <;> decide

lemma terminator_cases {c : Char} (h : isTerminatorChar c = true) :
    c = '.' ∨ c = '?' ∨ c = '!' := by
  simp only [isTerminatorChar, Bool.or_eq_true, beq_iff_eq] at h
  tauto

/-- The predicate filtered inside `lastTerminatorCut`. -/
lemma lastTerminatorCut_pred (toks : List Str) (k : ℕ) :
    (decide (0 < k) && (toks.get? (k - 1)).any endsWithTerminator) = true ↔
      1 ≤ k ∧ ∃ t, toks.get? (k - 1) = some t ∧
        ∃ c, t.getLast? = some c ∧ isTerminatorChar c = true := by
  constructor
  · intro h
    simp only [Bool.and_eq_true, decide_eq_true_eq] at h
    obtain ⟨h1, h2⟩ := h
    refine ⟨h1, ?_⟩
    cases hget : toks.get? (k - 1) with
    | none => rw [hget] at h2; simp [Option.any] at h2
    | some t =>
      rw [hget] at h2
      simp only [Option.any] at h2
      refine ⟨t, rfl, ?_⟩
      unfold endsWithTerminator at h2
      cases hlast : t.getLast? with
      | none => rw [hlast] at h2; simp [Option.any] at h2
      | some c =>
        rw [hlast] at h2
        simp only [Option.any] at h2
        exact ⟨c, rfl, h2⟩
  · rintro ⟨h1, t, ht, c, hc, hcT⟩
    simp only [Bool.and_eq_true, decide_eq_true_eq]
    refine ⟨h1, ?_⟩
    rw [ht]
    simp only [Option.any]
    unfold endsWithTerminator
    rw [hc]
    simpa using hcT

/-- A pattern occurrence in the joined text yields a `lastTerminatorCut`
candidate. -/
lemma match_gives_candidate (toks : List Str) (hg : goodToks toks) (c : Char)
    (hcT : isTerminatorChar c = true) (p : ℕ)
    (hm : matchesAt [c, ' '] ((pyJoin toks).drop p) = true) :
    ∃ k, 1 ≤ k ∧ k < toks.length ∧ p + 1 = (pyJoin (toks.take k)).length ∧
      (decide (0 < k) && (toks.get? (k - 1)).any endsWithTerminator) = true := by
  obtain ⟨k, hk1, hk2, hk3, t, ht, hlast⟩ :=
    (terminator_match_iff toks hg c (isSpaceChar_of_terminator hcT) p).mp hm
  exact ⟨k, hk1, hk2, hk3,
    (lastTerminatorCut_pred toks k).mpr ⟨hk1, t, ht, c, hlast, hcT⟩⟩

/-- Master description of `cutSegment` at the token level: when no token
before the last one ends in a sentence terminator the whole accumulation is
emitted; otherwise let `K` be the last such token position, and the cut
happens at `K` exactly when the terminator sits at a positive character
position and the character-length of the residual tail is less than half of
`max_words`. -/
lemma cutSegment_eq (n : ℕ) (toks : List Str) (hg : goodToks toks) :
    (lastTerminatorCut toks = none → cutSegment n toks = (pyJoin toks, [])) ∧
    (∀ K, lastTerminatorCut toks = some K →
      1 ≤ K ∧ K < toks.length ∧
      ((2 ≤ (pyJoin (toks.take K)).length ∧
        2 * ((pyJoin toks).length - (pyJoin (toks.take K)).length) < n →
          cutSegment n toks = (pyJoin (toks.take K), toks.drop K)) ∧
       (¬(2 ≤ (pyJoin (toks.take K)).length ∧
          2 * ((pyJoin toks).length - (pyJoin (toks.take K)).length) < n) →
          cutSegment n toks = (pyJoin toks, [])))) := by
  constructor
  · -- no candidate: all three rfinds are -1, force cut
    intro hnone
    have hall : ∀ b, b < toks.length →
        (decide (0 < b) && (toks.get? (b - 1)).any endsWithTerminator) = false :=
      getLast?_filter_range_none.mp hnone
    have hrfind : ∀ c : Char, isTerminatorChar c = true →
        pyRfind (pyJoin toks) [c, ' '] = -1 := by
      intro c hcT
      apply pyRfind_eq_neg_one
      intro p hp
      by_contra hmm
      have hm : matchesAt [c, ' '] ((pyJoin toks).drop p) = true := by
        cases h : matchesAt [c, ' '] ((pyJoin toks).drop p) with
        | true => rfl
        | false => exact absurd h hmm
      obtain ⟨k, hk1, hk2, -, hpred⟩ := match_gives_candidate toks hg c hcT p hm
      rw [hall k hk2] at hpred
      exact Bool.false_ne_true hpred
    have h1 := hrfind '.' (by decide)
    have h2 := hrfind '?' (by decide)
    have h3 := hrfind '!' (by decide)
    simp only [cutSegment]
    rw [h1, h2, h3]
    norm_num
  · intro K hK
    have hsome := getLast?_filter_range_some hK
    obtain ⟨hKlen, hKpred, hKmax⟩ := hsome
    obtain ⟨hK1, t, ht, c0, hc0, hc0T⟩ := (lastTerminatorCut_pred toks K).mp hKpred
    refine ⟨hK1, hKlen, ?_⟩
    -- abbreviations
    have hPpos : 1 ≤ (pyJoin (toks.take K)).length := by
      have := pyJoin_ne_nil (toks.take K) (goodToks_take toks hg K)
        (take_ne_nil_of_bounds hK1 (by omega))
      have := List.length_pos.mpr this
      omega
    obtain ⟨htake, hsep, hdrop⟩ := pyJoin_take_drop toks K hK1 hKlen
    have hPlt : (pyJoin (toks.take K)).length < (pyJoin toks).length := by
      obtain ⟨hlt, -⟩ := List.get?_eq_some.mp hsep
      exact hlt
    -- every rfind is at most P - 1
    have hupper : ∀ c : Char, isTerminatorChar c = true →
        pyRfind (pyJoin toks) [c, ' '] ≤ ((pyJoin (toks.take K)).length : ℤ) - 1 := by
      intro c hcT
      rcases pyRfind_cases (pyJoin toks) [c, ' '] with h | ⟨i, hi⟩
      · rw [h]; omega
      · rw [hi]
        obtain ⟨hile, him, -⟩ := pyRfind_spec hi
        obtain ⟨k, hk1, hk2, hk3, hpred⟩ := match_gives_candidate toks hg c hcT i him
        have hkK : k ≤ K := by
          by_contra hkK
          have := hKmax k (by omega) hk2
          rw [this] at hpred
          exact Bool.false_ne_true hpred
        have := pyJoin_take_length_le toks k K hk1 hkK (by omega)
        omega
    -- the rfind for c0 is at least P - 1
    have hlower : ((pyJoin (toks.take K)).length : ℤ) - 1
        ≤ pyRfind (pyJoin toks) [c0, ' '] := by
      have hmm : matchesAt [c0, ' ']
          ((pyJoin toks).drop ((pyJoin (toks.take K)).length - 1)) = true := by
        apply (terminator_match_iff toks hg c0 (isSpaceChar_of_terminator hc0T)
          ((pyJoin (toks.take K)).length - 1)).mpr
        exact ⟨K, hK1, hKlen, by omega, t, ht, hc0⟩
      have := pyRfind_ge (by omega) hmm
      omega
    -- hence split_pos = P - 1
    have hsplit : max (max (pyRfind (pyJoin toks) ['.', ' '])
        (pyRfind (pyJoin toks) ['?', ' '])) (pyRfind (pyJoin toks) ['!', ' '])
        = ((pyJoin (toks.take K)).length : ℤ) - 1 := by
      apply le_antisymm
      · exact max_le (max_le (hupper '.' (by decide)) (hupper '?' (by decide)))
          (hupper '!' (by decide))
      · rcases terminator_cases hc0T with h | h | h <;> subst h
        · exact le_trans hlower (le_max_of_le_left (le_max_left _ _))
        · exact le_trans hlower (le_max_of_le_left (le_max_right _ _))
        · exact le_trans hlower (le_max_right _ _)
    constructor
    · rintro ⟨hA, hB⟩
      simp only [cutSegment]
      rw [hsplit]
      rw [if_pos]
      · have e1 : (((pyJoin (toks.take K)).length : ℤ) - 1 + 1).toNat
            = (pyJoin (toks.take K)).length := by omega
        have e2 : (((pyJoin (toks.take K)).length : ℤ) - 1 + 2).toNat
            = (pyJoin (toks.take K)).length + 1 := by omega
        rw [e1, e2, htake, hdrop]
        rw [pyStrip_pyJoin (toks.take K) (goodToks_take toks hg K)
          (take_ne_nil_of_bounds hK1 (by omega))]
        rw [pySplit_pyJoin (toks.drop K) (goodToks_drop toks hg K)]
      · constructor
        · omega
        · have : ((pyJoin toks).length : ℤ) - (((pyJoin (toks.take K)).length : ℤ) - 1 + 1)
              = ((pyJoin toks).length - (pyJoin (toks.take K)).length : ℕ) := by omega
          omega
    · intro hneg
      simp only [cutSegment]
      rw [hsplit]
      rw [if_neg]
      intro ⟨hA, hB⟩
      apply hneg
      constructor
      · omega
      · omega


/-- `cutSegment` always cuts the accumulated words at some token boundary
`k ≥ 1`, emitting the join of the first `k` words and carrying the rest. -/
lemma cutSegment_spec (n : ℕ) (toks : List Str) (hg : goodToks toks)
    (hne : toks ≠ []) :
    ∃ k, 1 ≤ k ∧ k ≤ toks.length ∧
      cutSegment n toks = (pyJoin (toks.take k), toks.drop k) := by
  obtain ⟨hnone, hsome⟩ := cutSegment_eq n toks hg
  cases hK : lastTerminatorCut toks with
  | none =>
    refine ⟨toks.length, ?_, le_rfl, ?_⟩
    · have := List.length_pos.mpr hne
      omega
    · rw [hnone hK, List.take_length, List.drop_length]
  | some K =>
    obtain ⟨hK1, hKlen, hcond, hncond⟩ := hsome K hK
    by_cases hc : 2 ≤ (pyJoin (toks.take K)).length ∧
        2 * ((pyJoin toks).length - (pyJoin (toks.take K)).length) < n
    · exact ⟨K, hK1, by omega, hcond hc⟩
    · refine ⟨toks.length, ?_, le_rfl, ?_⟩
      · have := List.length_pos.mpr hne
        omega
      · rw [hncond hc, List.take_length, List.drop_length]

/-- Invariant of the word loop of `split_text_into_segments`. -/
lemma segLoop_spec (n : ℕ) (hn : 0 < n) :
    ∀ (ws : List Str), goodToks ws → ∀ (segs cur : List Str),
      goodToks cur → cur.length < n → (∀ s ∈ segs, SegProp n s) →
      goodToks (ws.foldl (segStep n) (segs, cur)).2 ∧
      (ws.foldl (segStep n) (segs, cur)).2.length < n ∧
      ((ws.foldl (segStep n) (segs, cur)).1.map pySplit).flatten
          ++ (ws.foldl (segStep n) (segs, cur)).2
        = (segs.map pySplit).flatten ++ cur ++ ws ∧
      (∀ s ∈ (ws.foldl (segStep n) (segs, cur)).1, SegProp n s) := by
  intro ws
  induction ws with
  | nil =>
    intro _ segs cur h1 h2 h3
    exact ⟨h1, h2, by simp, h3⟩
  | cons w ws ih =>
    intro hws segs cur h1 h2 h3
    have hw : goodTok w := hws w (by simp)
    have hws' : goodToks ws := fun u hu => hws u (by simp [hu])
    have hcur' : goodToks (cur ++ [w]) := by
      intro u hu
      rcases List.mem_append.mp hu with h | h
      · exact h1 u h
      · simp at h
        subst h
        exact hw
    rw [List.foldl_cons]
    by_cases htrig : n ≤ (cur ++ [w]).length
    · have hlen' : (cur ++ [w]).length = n := by
        simp only [List.length_append, List.length_cons, List.length_nil] at htrig ⊢
        omega
      have hne : cur ++ [w] ≠ [] := by simp
      obtain ⟨k, hk1, hk2, hcut⟩ := cutSegment_spec n (cur ++ [w]) hcur' hne
      have htrig' : n ≤ cur.length + 1 := by simpa using htrig
      have hstep : segStep n (segs, cur) w
          = (segs ++ [pyJoin ((cur ++ [w]).take k)], (cur ++ [w]).drop k) := by
        simp [segStep, htrig', hcut]
      rw [hstep]
      have hgood_take : goodToks ((cur ++ [w]).take k) := goodToks_take _ hcur' k
      have hgood_drop : goodToks ((cur ++ [w]).drop k) := goodToks_drop _ hcur' k
      have htake_ne : (cur ++ [w]).take k ≠ [] :=
        take_ne_nil_of_bounds hk1 (by rw [hlen']; omega)
      have hdrop_len : ((cur ++ [w]).drop k).length < n := by
        rw [List.length_drop, hlen']
        omega
      have hsplit_seg : pySplit (pyJoin ((cur ++ [w]).take k)) = (cur ++ [w]).take k :=
        pySplit_pyJoin _ hgood_take
      have hSeg : SegProp n (pyJoin ((cur ++ [w]).take k)) := by
        refine ⟨pyJoin_ne_nil _ hgood_take htake_ne, by rw [hsplit_seg], ?_⟩
        rw [hsplit_seg, List.length_take, hlen']
        omega
      have hsegs' : ∀ s ∈ segs ++ [pyJoin ((cur ++ [w]).take k)], SegProp n s := by
        intro s hs
        rcases List.mem_append.mp hs with h | h
        · exact h3 s h
        · simp at h
          subst h
          exact hSeg
      obtain ⟨a1, a2, a3, a4⟩ := ih hws' _ _ hgood_drop hdrop_len hsegs'
      refine ⟨a1, a2, ?_, a4⟩
      rw [a3]
      have hmapjoin : ((segs ++ [pyJoin ((cur ++ [w]).take k)]).map pySplit).flatten
          = (segs.map pySplit).flatten ++ (cur ++ [w]).take k := by
        rw [List.map_append, List.flatten_append]
        simp [hsplit_seg]
      have hTD : (cur ++ [w]).take k ++ ((cur ++ [w]).drop k ++ ws)
          = cur ++ (w :: ws) := by
        rw [← List.append_assoc, List.take_append_drop]
        simp
      rw [hmapjoin, List.append_assoc, List.append_assoc, hTD, List.append_assoc]
    · have htrig' : ¬ n ≤ cur.length + 1 := by simpa using htrig
      have hstep : segStep n (segs, cur) w = (segs, cur ++ [w]) := by
        simp [segStep, htrig']
      rw [hstep]
      obtain ⟨a1, a2, a3, a4⟩ := ih hws' segs (cur ++ [w]) hcur' (not_le.mp htrig) h3
      refine ⟨a1, a2, ?_, a4⟩
      rw [a3]
      simp [List.append_assoc]

lemma pySplit_all_space (s : Str) (h : ∀ c ∈ s, isSpaceChar c = true) :
    pySplit s = [] := by
  induction s with
  | nil => rfl
  | cons c r ih =>
    rw [pySplit_cons_space (h c (by simp))]
    exact ih (fun d hd => h d (by simp [hd]))

/-- Splitting a single-space join of canonical segments concatenates their
word lists. -/
lemma pySplit_pyJoin_parts (segs : List Str)
    (h : ∀ s ∈ segs, s ≠ [] ∧ pyJoin (pySplit s) = s) :
    pySplit (pyJoin segs) = (segs.map pySplit).flatten := by
  induction segs with
  | nil => rfl
  | cons s rest ih =>
    obtain ⟨hne, hjoin⟩ := h s (by simp)
    have hgs : goodToks (pySplit s) := goodToks_pySplit s
    have htne : pySplit s ≠ [] := by
      intro hh
      apply hne
      rw [← hjoin, hh]
      rfl
    cases rest with
    | nil =>
      simp only [pyJoin, List.map_cons, List.map_nil, List.flatten_cons,
        List.flatten_nil, List.append_nil]
    | cons s2 rest2 =>
      rw [pyJoin_cons _ _ (by simp)]
      conv_lhs => rw [← hjoin]
      rw [pySplit_pyJoin_cont (pySplit s) hgs htne (pyJoin (s2 :: rest2))]
      rw [ih (fun u hu => h u (by simp [hu]))]
      simp

/-- C4: every segment of `split_text_into_segments` has at most `max_words`
whitespace-separated words. -/
theorem claim_C4_segment_word_bound (text : Str) (max_words : ℕ)
    (hn : 0 < max_words) :
    ∀ s ∈ split_text_into_segments text max_words,
      (pySplit s).length ≤ max_words := by
  intro s hs
  by_cases htext : text = []
  · simp [split_text_into_segments, htext] at hs
  · simp only [split_text_into_segments, if_neg htext] at hs
    obtain ⟨a1, a2, a3, a4⟩ := segLoop_spec max_words hn (pySplit text)
      (goodToks_pySplit text) [] []
      (fun t ht => absurd ht (List.not_mem_nil t))
      (by simpa using hn)
      (fun t ht => absurd ht (List.not_mem_nil t))
    rcases List.mem_filter.mp hs with ⟨hmem, -⟩
    by_cases hleft : ((pySplit text).foldl (segStep max_words) ([], [])).2 ≠ []
    · rw [if_pos hleft] at hmem
      rcases List.mem_append.mp hmem with h | h
      · exact (a4 s h).2.2
      · simp only [List.mem_singleton] at h
        subst h
        rw [pySplit_pyJoin _ a1]
        exact le_of_lt a2
    · rw [if_neg hleft] at hmem
      exact (a4 s hmem).2.2

/-- C5: the splitter loses, duplicates and reorders no words; whitespace-only
input gives no segments; no returned segment is empty. -/
theorem claim_C5_words_preserved (text : Str) (max_words : ℕ)
    (hn : 0 < max_words) :
    pySplit (pyJoin (split_text_into_segments text max_words)) = pySplit text ∧
    ((∀ c ∈ text, isSpaceChar c = true) →
      split_text_into_segments text max_words = []) ∧
    (∀ s ∈ split_text_into_segments text max_words, s ≠ []) := by
  refine ⟨?_, ?_, ?_⟩
  · by_cases htext : text = []
    · simp [split_text_into_segments, htext, pyJoin, pySplit_nil]
    · obtain ⟨a1, a2, a3, a4⟩ := segLoop_spec max_words hn (pySplit text)
        (goodToks_pySplit text) [] []
        (fun t ht => absurd ht (List.not_mem_nil t))
        (by simpa using hn)
        (fun t ht => absurd ht (List.not_mem_nil t))
      simp only [List.map_nil, List.flatten_nil, List.nil_append] at a3
      simp only [split_text_into_segments, if_neg htext]
      by_cases hleft : ((pySplit text).foldl (segStep max_words) ([], [])).2 ≠ []
      · rw [if_pos hleft]
        have hparts : ∀ s ∈ ((pySplit text).foldl (segStep max_words) ([], [])).1
            ++ [pyJoin ((pySplit text).foldl (segStep max_words) ([], [])).2],
            s ≠ [] ∧ pyJoin (pySplit s) = s := by
          intro s hsmem
          rcases List.mem_append.mp hsmem with h | h
          · exact ⟨(a4 s h).1, (a4 s h).2.1⟩
          · simp only [List.mem_singleton] at h
            subst h
            refine ⟨pyJoin_ne_nil _ a1 hleft, ?_⟩
            rw [pySplit_pyJoin _ a1]
        have hfilter : (((pySplit text).foldl (segStep max_words) ([], [])).1
            ++ [pyJoin ((pySplit text).foldl (segStep max_words) ([], [])).2]).filter
              (fun s => s ≠ []) =
            ((pySplit text).foldl (segStep max_words) ([], [])).1
            ++ [pyJoin ((pySplit text).foldl (segStep max_words) ([], [])).2] := by
          rw [List.filter_eq_self]
          intro a ha
          simpa using (hparts a ha).1
        rw [hfilter, pySplit_pyJoin_parts _ hparts]
        rw [List.map_append, List.flatten_append]
        simp only [List.map_cons, List.map_nil, List.flatten_cons, List.flatten_nil,
          List.append_nil]
        rw [pySplit_pyJoin _ a1]
        exact a3
      · rw [if_neg hleft]
        push_neg at hleft
        have hparts : ∀ s ∈ ((pySplit text).foldl (segStep max_words) ([], [])).1,
            s ≠ [] ∧ pyJoin (pySplit s) = s :=
          fun s h => ⟨(a4 s h).1, (a4 s h).2.1⟩
        have hfilter : (((pySplit text).foldl (segStep max_words) ([], [])).1).filter
              (fun s => s ≠ []) =
            ((pySplit text).foldl (segStep max_words) ([], [])).1 := by
          rw [List.filter_eq_self]
          intro a ha
          simpa using (hparts a ha).1
        rw [hfilter, pySplit_pyJoin_parts _ hparts]
        rw [hleft] at a3
        simpa using a3
  · intro hsp
    by_cases htext : text = []
    · simp [split_text_into_segments, htext]
    · have : pySplit text = [] := pySplit_all_space text hsp
      simp [split_text_into_segments, if_neg htext, this]
  · intro s hs
    by_cases htext : text = []
    · simp [split_text_into_segments, htext] at hs
    · simp only [split_text_into_segments, if_neg htext] at hs
      rcases List.mem_filter.mp hs with ⟨-, hpred⟩
      simpa using hpred

/-- C6: when the accumulation reaches `max_words` words, the cut happens at
the last token ending in a sentence terminator provided the terminator sits
at a positive character position and the residual character tail is shorter
than half of `max_words` (the source compares the tail's character count
with `max_words / 2`); the tail is carried over. In every other case the
whole accumulation of exactly `max_words` words is emitted with no
carry-over. -/
theorem claim_C6_sentence_cut_rule (toks : List Str) (max_words : ℕ)
    (hg : goodToks toks) (_hlen : toks.length = max_words) (_hn : 0 < max_words) :
    (lastTerminatorCut toks = none →
      cutSegment max_words toks = (pyJoin toks, [])) ∧
    (∀ K, lastTerminatorCut toks = some K →
      1 ≤ K ∧ K < toks.length ∧
      ((2 ≤ (pyJoin (toks.take K)).length ∧
        2 * ((pyJoin toks).length - (pyJoin (toks.take K)).length) < max_words →
          cutSegment max_words toks = (pyJoin (toks.take K), toks.drop K)) ∧
       (¬(2 ≤ (pyJoin (toks.take K)).length ∧
          2 * ((pyJoin toks).length - (pyJoin (toks.take K)).length) < max_words) →
          cutSegment max_words toks = (pyJoin toks, [])))) :=
  cutSegment_eq max_words toks hg

theorem claim_C4_witness :
    0 < 4 ∧ ∀ s ∈ split_text_into_segments
      ("one two three. four five six seven eight".toList) 4,
      (pySplit s).length ≤ 4 :=
  ⟨by decide, claim_C4_segment_word_bound _ 4 (by decide)⟩

theorem claim_C5_witness :
    0 < 12 ∧
    (pySplit (pyJoin (split_text_into_segments
        ("a b c d e f g h i j k. m n o p".toList) 12))
      = pySplit ("a b c d e f g h i j k. m n o p".toList) ∧
    ((∀ c ∈ ("a b c d e f g h i j k. m n o p".toList), isSpaceChar c = true) →
      split_text_into_segments ("a b c d e f g h i j k. m n o p".toList) 12 = []) ∧
    (∀ s ∈ split_text_into_segments ("a b c d e f g h i j k. m n o p".toList) 12,
      s ≠ [])) :=
  ⟨by decide, claim_C5_words_preserved _ 12 (by decide)⟩

theorem claim_C6_witness :
    (goodToks (pySplit "a b c d e f g h i j k. m".toList) ∧
     (pySplit "a b c d e f g h i j k. m".toList).length = 12 ∧ 0 < 12) ∧
    ((lastTerminatorCut (pySplit "a b c d e f g h i j k. m".toList) = none →
      cutSegment 12 (pySplit "a b c d e f g h i j k. m".toList)
        = (pyJoin (pySplit "a b c d e f g h i j k. m".toList), [])) ∧
    (∀ K, lastTerminatorCut (pySplit "a b c d e f g h i j k. m".toList) = some K →
      1 ≤ K ∧ K < (pySplit "a b c d e f g h i j k. m".toList).length ∧
      ((2 ≤ (pyJoin ((pySplit "a b c d e f g h i j k. m".toList).take K)).length ∧
        2 * ((pyJoin (pySplit "a b c d e f g h i j k. m".toList)).length
          - (pyJoin ((pySplit "a b c d e f g h i j k. m".toList).take K)).length) < 12 →
          cutSegment 12 (pySplit "a b c d e f g h i j k. m".toList)
            = (pyJoin ((pySplit "a b c d e f g h i j k. m".toList).take K),
               (pySplit "a b c d e f g h i j k. m".toList).drop K)) ∧
       (¬(2 ≤ (pyJoin ((pySplit "a b c d e f g h i j k. m".toList).take K)).length ∧
          2 * ((pyJoin (pySplit "a b c d e f g h i j k. m".toList)).length
            - (pyJoin ((pySplit "a b c d e f g h i j k. m".toList).take K)).length) < 12) →
          cutSegment 12 (pySplit "a b c d e f g h i j k. m".toList)
            = (pyJoin (pySplit "a b c d e f g h i j k. m".toList), []))))) :=
  ⟨⟨by decide, by decide, by decide⟩,
   claim_C6_sentence_cut_rule _ 12 (by decide) (by decide) (by decide)⟩

lemma overlayLoop_length (ps : List (String × ℚ)) (t : ℚ) :
    (overlayLoop ps t).length = ps.length := by
  induction ps generalizing t with
  | nil => rfl
  | cons p rest ih => cases p with | mk img d => simp [overlayLoop, ih]

lemma overlayLoop_get_zero (ps : List (String × ℚ)) (t : ℚ) (c : OverlayClip)
    (h : (overlayLoop ps t).get? 0 = some c) : c.start = t := by
  cases ps with
  | nil => simp [overlayLoop] at h
  | cons p rest =>
    cases p with | mk img d =>
      simp [overlayLoop] at h
      rw [← h]

lemma overlayLoop_chain (ps : List (String × ℚ)) :
    ∀ (t : ℚ) (i : ℕ) (c c' : OverlayClip),
      (overlayLoop ps t).get? i = some c →
      (overlayLoop ps t).get? (i + 1) = some c' →
      c'.start = c.start + c.duration := by
  induction ps with
  | nil => intro t i c c' h; simp [overlayLoop] at h
  | cons p rest ih =>
    intro t i c c' h h'
    cases p with | mk img d =>
    cases i with
    | zero =>
      simp [overlayLoop] at h
      have : c'.start = t + d := by
        apply overlayLoop_get_zero rest (t + d) c'
        simpa [overlayLoop] using h'
      rw [this, ← h]
    | succ i =>
      exact ih (t + d) i c c' (by simpa [overlayLoop] using h) (by simpa [overlayLoop] using h')

lemma overlayLoop_getLast (ps : List (String × ℚ)) :
    ∀ (t : ℚ) (c : OverlayClip), (overlayLoop ps t).getLast? = some c →
      c.start + c.duration = t + (ps.map Prod.snd).sum := by
  induction ps with
  | nil => intro t c h; simp [overlayLoop] at h
  | cons p rest ih =>
    intro t c h
    cases p with | mk img d =>
    cases rest with
    | nil =>
      simp [overlayLoop] at h
      rw [← h]
      simp
    | cons q rs =>
      have hne : overlayLoop (q :: rs) (t + d) = (overlayLoop (q :: rs) (t + d)) := rfl
      cases q with | mk img2 d2 =>
      have := ih (t + d) c (by simpa [overlayLoop, List.getLast?_cons_cons] using h)
      rw [this]
      simp [List.sum_cons]
      ring

/-- C1 -/
theorem claim_C1_assemble_reel_unbound_names :
    (∀ (d : ℚ) (rest : ℚ → Except PyErr String),
      assemble_reel_run (Except.ok d) rest
        = Except.error (PyErr.nameError "background_is_9_16")) ∧
    pyResolve assembleReelLocalsAtReturn assembleReelGlobals "output_path"
      = Except.error (PyErr.nameError "output_path") ∧
    "output_path_temp" ∈ assembleReelLocalsAtReturn :=
  ⟨fun _ _ => rfl, by decide, by decide⟩

/-- C2 counterexample -/
theorem claim_C2_mismatch_counterexample :
    select_overlay_clips 10 ["a", "b"] (some [1])
      = Except.ok [⟨"a", 0, 3⟩, ⟨"b", 3, 7⟩] := by
  simp [select_overlay_clips, default_overlay_clips, overlayLoop]
  norm_num

/-- C2 amended -/
theorem claim_C2_mismatch_falls_back_to_default
    (total_audio_duration : ℚ) (image_paths : List String) (durs : List ℚ)
    (hne : durs ≠ []) (hlen : durs.length ≠ image_paths.length) :
    select_overlay_clips total_audio_duration image_paths (some durs)
      = default_overlay_clips total_audio_duration image_paths := by
  simp [select_overlay_clips, hne, hlen]

theorem claim_C2_witness :
    (([1] : List ℚ) ≠ [] ∧ ([1] : List ℚ).length ≠ (["a", "b"] : List String).length) ∧
    select_overlay_clips 10 ["a", "b"] (some [1]) = default_overlay_clips 10 ["a", "b"] :=
  ⟨⟨by simp, by simp⟩,
   claim_C2_mismatch_falls_back_to_default 10 ["a", "b"] [1] (by simp) (by simp)⟩

/-- C3 counterexample -/
theorem claim_C3_zero_slide_counterexample :
    compute_image_durations 2 [0, 5] = Except.ok [0, 5] ∧
    (0 : ℚ) ∈ ([0, 5] : List ℚ) ∧ (5 : ℚ) ∈ ([0, 5] : List ℚ) ∧ (0 : ℚ) < 5 := by
  refine ⟨?_, by simp, by simp, by norm_num⟩
  simp [compute_image_durations]

/-- C3 amended -/
theorem claim_C3_fallback_only_when_total_zero (image_count : ℕ) (durs : List ℚ)
    (hne : durs ≠ []) (hk : 0 < image_count) :
    (durs.sum = 0 →
      compute_image_durations image_count durs
        = Except.ok (List.replicate image_count 3)) ∧
    (durs.sum ≠ 0 →
      compute_image_durations image_count durs = Except.ok durs) := by
  constructor
  · intro hz
    have h3 : (List.replicate image_count (3 : ℚ)).sum = 3 * image_count := by
      simp [List.sum_replicate, mul_comm]
    simp [compute_image_durations, hz, hne, h3]
    intro habs
    have : (image_count : ℚ) ≠ 0 := Nat.cast_ne_zero.mpr hk.ne'
    exact absurd habs (by positivity)
  · intro hz
    simp [compute_image_durations, hz]

theorem claim_C3_witness :
    (([0, 0] : List ℚ) ≠ [] ∧ 0 < 2) ∧
    ((List.sum ([0, 0] : List ℚ) = 0 →
      compute_image_durations 2 [0, 0] = Except.ok (List.replicate 2 3)) ∧
     (List.sum ([0, 0] : List ℚ) ≠ 0 →
      compute_image_durations 2 [0, 0] = Except.ok [0, 0])) :=
  ⟨⟨by simp, by norm_num⟩,
   claim_C3_fallback_only_when_total_zero 2 [0, 0] (by simp) (by norm_num)⟩

/-- C7 -/
theorem claim_C7_loop_count (video_duration desired_duration : ℚ)
    (hD : 0 < video_duration) (hle : video_duration ≤ desired_duration) :
    prepare_background video_duration desired_duration
      = Except.ok (BgPlan.loop (⌊desired_duration / video_duration⌋ + 1)) ∧
    desired_duration
      ≤ ((⌊desired_duration / video_duration⌋ + 1 : ℤ) : ℚ) * video_duration := by
  have hT : 0 < desired_duration := lt_of_lt_of_le hD hle
  have hdiv : 0 ≤ desired_duration / video_duration := by positivity
  constructor
  · simp [prepare_background, hD.ne', not_lt.mpr hle, pyInt, hdiv]
  · have hlt : desired_duration / video_duration
        < ((⌊desired_duration / video_duration⌋ : ℚ) + 1) :=
      Int.lt_floor_add_one _
    have := mul_lt_mul_of_pos_right hlt hD
    rw [div_mul_cancel₀ _ hD.ne'] at this
    push_cast
    exact this.le

theorem claim_C7_witness :
    ((0 : ℚ) < 2 ∧ (2 : ℚ) ≤ 5) ∧
    (prepare_background 2 5 = Except.ok (BgPlan.loop (⌊(5 : ℚ) / 2⌋ + 1)) ∧
     (5 : ℚ) ≤ ((⌊(5 : ℚ) / 2⌋ + 1 : ℤ) : ℚ) * 2) :=
  ⟨⟨by norm_num, by norm_num⟩, claim_C7_loop_count 2 5 (by norm_num) (by norm_num)⟩

/-- C8 -/
theorem claim_C8_error_iff_duration_zero (probe : Option ℚ) (desired_duration : ℚ)
    (hprobe : ∀ d, probe = some d → 0 ≤ d) :
    ((∃ e, prepare_background (get_video_duration probe) desired_duration
        = Except.error e) ↔ (probe = none ∨ probe = some 0)) ∧
    ((∃ e, chop_background_duration_check (get_video_duration probe)
        = Except.error e) ↔ (probe = none ∨ probe = some 0)) := by
  cases probe with
  | none =>
    simp [get_video_duration, prepare_background, chop_background_duration_check]
  | some d =>
    have hd : 0 ≤ d := hprobe d rfl
    by_cases hz : d = 0
    · subst hz
      simp [get_video_duration, prepare_background, chop_background_duration_check]
    · have hpos : 0 < d := lt_of_le_of_ne hd (Ne.symm hz)
      by_cases htrim : desired_duration < d
      · simp [get_video_duration, prepare_background, chop_background_duration_check,
          hz, htrim, not_le.mpr hpos]
      · simp [get_video_duration, prepare_background, chop_background_duration_check,
          hz, htrim, not_le.mpr hpos]

theorem claim_C8_witness :
    (∀ d : ℚ, (some (2 : ℚ)) = some d → 0 ≤ d) ∧
    (((∃ e, prepare_background (get_video_duration (some 2)) 5 = Except.error e)
        ↔ ((some (2 : ℚ)) = none ∨ (some (2 : ℚ)) = some 0)) ∧
     ((∃ e, chop_background_duration_check (get_video_duration (some 2)) = Except.error e)
        ↔ ((some (2 : ℚ)) = none ∨ (some (2 : ℚ)) = some 0))) :=
  ⟨fun d h => by injection h with h; rw [← h]; norm_num,
   claim_C8_error_iff_duration_zero (some 2) 5
     (fun d h => by injection h with h; rw [← h]; norm_num)⟩

/-- C9 -/
theorem claim_C9_timeline_contiguous (total_audio_duration : ℚ)
    (image_paths : List String) (durs : List ℚ)
    (hne : image_paths ≠ []) (hlen : durs.length = image_paths.length) :
    select_overlay_clips total_audio_duration image_paths (some durs)
      = Except.ok (overlayLoop (image_paths.zip durs) 0) ∧
    (overlayLoop (image_paths.zip durs) 0).length = image_paths.length ∧
    (∀ c, (overlayLoop (image_paths.zip durs) 0).get? 0 = some c → c.start = 0) ∧
    (∀ i c c', (overlayLoop (image_paths.zip durs) 0).get? i = some c →
      (overlayLoop (image_paths.zip durs) 0).get? (i + 1) = some c' →
      c'.start = c.start + c.duration) ∧
    (∀ c, (overlayLoop (image_paths.zip durs) 0).getLast? = some c →
      c.start + c.duration = durs.sum) := by
  have hdne : durs ≠ [] := by
    intro h
    apply hne
    rw [h] at hlen
    exact List.length_eq_zero.mp hlen.symm
  refine ⟨by simp [select_overlay_clips, hdne, hlen], ?_, ?_, ?_, ?_⟩
  · rw [overlayLoop_length, List.length_zip, hlen, min_self]
  · exact fun c h => overlayLoop_get_zero _ _ _ h
  · exact fun i c c' h h' => overlayLoop_chain _ _ _ _ _ h h'
  · intro c h
    have := overlayLoop_getLast (image_paths.zip durs) 0 c h
    rwa [List.map_snd_zip _ _ (le_of_eq hlen), zero_add] at this

theorem claim_C9_witness :
    ((["a", "b"] : List String) ≠ [] ∧ ([2, 3] : List ℚ).length = (["a", "b"] : List String).length) ∧
    (select_overlay_clips 10 ["a", "b"] (some [2, 3])
      = Except.ok (overlayLoop ((["a", "b"] : List String).zip ([2, 3] : List ℚ)) 0) ∧
    (overlayLoop ((["a", "b"] : List String).zip ([2, 3] : List ℚ)) 0).length = (["a", "b"] : List String).length ∧
    (∀ c, (overlayLoop ((["a", "b"] : List String).zip ([2, 3] : List ℚ)) 0).get? 0 = some c → c.start = 0) ∧
    (∀ i c c', (overlayLoop ((["a", "b"] : List String).zip ([2, 3] : List ℚ)) 0).get? i = some c →
      (overlayLoop ((["a", "b"] : List String).zip ([2, 3] : List ℚ)) 0).get? (i + 1) = some c' →
      c'.start = c.start + c.duration) ∧
    (∀ c, (overlayLoop ((["a", "b"] : List String).zip ([2, 3] : List ℚ)) 0).getLast? = some c →
      c.start + c.duration = ([2, 3] : List ℚ).sum)) :=
  ⟨⟨by simp, by simp⟩,
   claim_C9_timeline_contiguous 10 ["a", "b"] [2, 3] (by simp) (by simp)⟩

/-- C10 -/
theorem claim_C10_teardown_always_runs :
    (∀ e, generate_reel_outcome (Except.error e) = (none, teardown_action)) ∧
    (∀ p, generate_reel_outcome (Except.ok p) = (some p, teardown_action)) := by
  constructor
  · intro e; cases e <;> rfl
  · intro p; rfl

end ReelSpec
